import Mathlib

/-!
Verification of the Quizzy PDF-processing script (`scripts/process-pdf.py`).

The script's pure core is embedded shallowly:
* Python strings become `List Char` (a Python `str` is a sequence of code points);
* Python `int`s that may go negative (slice indices, the chunker's `start`)
  become `Int`;
* `clean_text`, the per-page chunking loop of `create_chunks`, the batching
  arithmetic of `save_chunks`, and `main`'s global id-reassignment pass are
  translated function by function below.
-/

set_option autoImplicit false

namespace Quizzy

/-! ### Character classes

`clean_text` uses three character classes:
* the control characters removed by `re.sub(r'[\x00-\x08\x0b\x0c\x0e-\x1f\x7f-\x9f]', '', ...)`;
* the regex `\s` class (Unicode White_Space) used by `re.sub(r'\s+', ' ', ...)`
  and `re.sub(r'\n\s*\n', '\n\n', ...)`;
* the whitespace class of `str.strip()` (Unicode whitespace for `str.isspace`,
  which additionally contains U+001C..U+001F).
-/

def isCtrlRemoved (c : Char) : Bool :=
  (c.val ≤ 0x08) || (c.val = 0x0b) || (c.val = 0x0c) ||
  (0x0e ≤ c.val && c.val ≤ 0x1f) || (0x7f ≤ c.val && c.val ≤ 0x9f)

def isRegexSpace (c : Char) : Bool :=
  (0x09 ≤ c.val && c.val ≤ 0x0d) || (c.val = 0x20) || (c.val = 0x85) ||
  (c.val = 0xa0) || (c.val = 0x1680) || (0x2000 ≤ c.val && c.val ≤ 0x200a) ||
  (c.val = 0x2028) || (c.val = 0x2029) || (c.val = 0x202f) ||
  (c.val = 0x205f) || (c.val = 0x3000)

def isStripSpace (c : Char) : Bool :=
  isRegexSpace c || (0x1c ≤ c.val && c.val ≤ 0x1f)

/-! ### `clean_text` -/

/-- `re.sub(r'[\x00-\x08\x0b\x0c\x0e-\x1f\x7f-\x9f]', '', text)`. -/
def removeCtrl (s : List Char) : List Char :=
  s.filter (fun c => !isCtrlRemoved c)

/-- Worker for `re.sub(r'\s+', ' ', text)`: the flag records whether the
previous character belonged to a whitespace run already replaced by `' '`. -/
def collapseWsAux : Bool → List Char → List Char
  | _, [] => []
  | prevSpace, c :: rest =>
    if isRegexSpace c then
      if prevSpace then collapseWsAux true rest
      else ' ' :: collapseWsAux true rest
    else c :: collapseWsAux false rest

/-- `re.sub(r'\s+', ' ', text)`: each maximal run of `\s` characters becomes a
single `' '`. -/
def collapseWs (s : List Char) : List Char :=
  collapseWsAux false s

/-- Index of the last occurrence of `c` in `s`, if any. -/
def lastPos (s : List Char) (c : Char) : Option Nat :=
  match s with
  | [] => none
  | d :: rest =>
    match lastPos rest c with
    | some k => some (k + 1)
    | none => if d = c then some 0 else none

/-- Worker for `re.sub(r'\n\s*\n', '\n\n', text)`, structurally recursive on a
fuel bound (any fuel at least the list length gives the regex semantics).  A
match starts at a `'\n'`; the greedy `\s*` then extends so that the match ends
at the last `'\n'` of the following maximal whitespace run (regex
backtracking); the match is replaced by two newlines and scanning resumes
after it. -/
def subBlankF : Nat → List Char → List Char
  | 0, s => s
  | _ + 1, [] => []
  | fuel + 1, c :: rest =>
    if c = '\n' then
      match lastPos (rest.takeWhile isRegexSpace) '\n' with
      | some k => '\n' :: '\n' :: subBlankF fuel (rest.drop (k + 1))
      | none => '\n' :: subBlankF fuel rest
    else c :: subBlankF fuel rest

/-- `re.sub(r'\n\s*\n', '\n\n', text)`. -/
def subBlank (s : List Char) : List Char :=
  subBlankF s.length s

/-- Remove a maximal trailing run of characters satisfying `p`
(the right half of Python's `str.strip()`). -/
def dropTrailing (p : Char → Bool) : List Char → List Char
  | [] => []
  | c :: t =>
    match dropTrailing p t with
    | [] => if p c then [] else [c]
    | r => c :: r

/-- Python `str.strip()`: remove leading and trailing whitespace. -/
def pyStrip (s : List Char) : List Char :=
  dropTrailing isStripSpace (s.dropWhile isStripSpace)

/-- `clean_text` from the script: remove control characters, collapse
whitespace runs, collapse multiple blank lines, strip. -/
def clean_text (s : List Char) : List Char :=
  pyStrip (subBlank (collapseWs (removeCtrl s)))

/-! ### Python slicing and `rfind` -/

/-- Resolve a Python slice bound against a sequence of length `L`:
negative indices count from the end, and bounds are clamped to `[0, L]`. -/
def pyIdx (L : Nat) (i : Int) : Nat :=
  if i < 0 then (max 0 (i + L)).toNat else min i.toNat L

/-- Python `s[a:b]` for code-point sequences. -/
def pySlice (s : List Char) (a b : Int) : List Char :=
  (s.take (pyIdx s.length b)).drop (pyIdx s.length a)

/-- Python `s.rfind(c)`: index of the last occurrence, or `-1`. -/
def rfind (s : List Char) (c : Char) : Int :=
  match lastPos s c with
  | some k => (k : Int)
  | none => -1

/-! ### `create_chunks` -/

structure Chunk where
  id : Nat
  page : Nat
  text : List Char
deriving DecidableEq, Repr

structure Page where
  page : Nat
  text : List Char
deriving DecidableEq, Repr

/-- The boundary-snapping part of a loop iteration: the candidate window
`text[start:start+S]` and its adjusted end.  When the window does not reach
the end of the text, search backward for the last `'.'` or `'\n'`; if the
found position exceeds `S * 0.5`, truncate the window just after it.
The float test `break_point > chunk_size * 0.5` is rendered as
`2 * break_point > chunk_size`, which is equivalent for integer
`break_point` whenever `chunk_size * 0.5` is exact (all sizes below 2^53). -/
def windowAdjusted (text : List Char) (S : Nat) (start : Int) : List Char × Int :=
  let e := start + (S : Int)
  let ct := pySlice text start e
  if e < (text.length : Int) then
    let breakPoint := max (rfind ct '.') (rfind ct '\n')
    if 2 * breakPoint > (S : Int) then
      (ct.take (breakPoint + 1).toNat, start + breakPoint + 1)
    else (ct, e)
  else (ct, e)

/-- One iteration of the `while start < len(text)` loop of `create_chunks`,
returning the emitted chunk text (if any) and the next `start`. -/
def chunkStep (text : List Char) (S O : Nat) (start : Int) : Option (List Char) × Int :=
  let p := windowAdjusted text S start
  let emitted := if pyStrip p.1 = [] then none else some (pyStrip p.1)
  let nextStart := if p.2 < (text.length : Int) then p.2 - (O : Int) else (text.length : Int)
  (emitted, nextStart)

/-- The per-page `while` loop of `create_chunks`, run with explicit fuel
(the Python loop has no a-priori bound; `none` means the fuel ran out before
the loop finished).  `cid` is the running `chunk_id`; the returned `Nat` is
its final value. -/
def runPageAux (text : List Char) (S O pageNum : Nat) :
    Nat → Int → Nat → Option (List Chunk × Nat)
  | 0, start, cid =>
    if start < (text.length : Int) then none else some ([], cid)
  | fuel + 1, start, cid =>
    if start < (text.length : Int) then
      let p := chunkStep text S O start
      match p.1 with
      | some t =>
        (runPageAux text S O pageNum fuel p.2 (cid + 1)).map
          (fun r => ({ id := cid, page := pageNum, text := t } :: r.1, r.2))
      | none => runPageAux text S O pageNum fuel p.2 cid
    else some ([], cid)

/-- The page loop of `create_chunks` over a list of pages, threading the
running `chunk_id`. A page whose cleaned text is empty is skipped. -/
def create_chunksAux (S O fuel : Nat) : List Page → Nat → Option (List Chunk)
  | [], _ => some []
  | p :: ps, cid =>
    let text := clean_text p.text
    if text = [] then create_chunksAux S O fuel ps cid
    else
      match runPageAux text S O p.page fuel 0 cid with
      | some r => (create_chunksAux S O fuel ps r.2).map (fun rest => r.1 ++ rest)
      | none => none

/-- `create_chunks(pages, chunk_size, overlap)`. -/
def create_chunks (pages : List Page) (S O fuel : Nat) : Option (List Chunk) :=
  create_chunksAux S O fuel pages 0

/-- The loop of `create_chunks` terminates on `text` (for a given size and
overlap): some amount of fuel lets `runPageAux` finish from `start = 0`. -/
def pageLoopTerminates (text : List Char) (S O : Nat) : Prop :=
  ∀ pageNum cid, ∃ fuel, (runPageAux text S O pageNum fuel 0 cid).isSome = true

/-! ### `save_chunks` -/

/-- `save_chunks(chunks, ..., chunks_per_file)`: the list of batches written
(in file-number order) and the returned `num_files`. -/
def save_chunks (chunks : List Chunk) (cpf : Nat) : List (List Chunk) × Nat :=
  let numFiles := (chunks.length + cpf - 1) / cpf
  ((List.range numFiles).map
    (fun i => (chunks.take (min ((i + 1) * cpf) chunks.length)).drop (i * cpf)),
   numFiles)

/-! ### `main`'s accumulation across PDFs -/

/-- A chunk after `main` tags it with its source file name. -/
structure SChunk where
  id : Nat
  page : Nat
  text : List Char
  source : String
deriving DecidableEq, Repr

/-- `for chunk in chunks: chunk["id"] = len(all_chunks) + chunk["id"];
chunk["source"] = pdf_path.name`. -/
def reassign (accLen : Nat) (name : String) (cs : List Chunk) : List SChunk :=
  cs.map (fun c => { id := accLen + c.id, page := c.page, text := c.text, source := name })

/-- The per-PDF loop of `main`: extract pages, chunk them, renumber ids by the
running total, tag with the file name, extend the accumulator. -/
def mainAccum (S O fuel : Nat) : List (String × List Page) → List SChunk → Option (List SChunk)
  | [], acc => some acc
  | (name, pages) :: rest, acc =>
    match create_chunks pages S O fuel with
    | some cs => mainAccum S O fuel rest (acc ++ reassign acc.length name cs)
    | none => none

/-- No two adjacent characters are both `\s` characters. -/
def noAdjSpace : List Char → Bool
  | [] => true
  | [_] => true
  | a :: b :: t => (!(isRegexSpace a && isRegexSpace b)) && noAdjSpace (b :: t)

/-- Every whitespace character is a plain blank `' '`. -/
def spacesBlank (l : List Char) : Bool :=
  l.all (fun c => !isRegexSpace c || c == ' ')

/-- No character of the removed control ranges occurs. -/
def noCtrl (l : List Char) : Bool :=
  l.all (fun c => !isCtrlRemoved c)

/-- The first character, if any, is not strip-whitespace. -/
def headTrimmed (l : List Char) : Bool :=
  match l.head? with
  | none => true
  | some c => !isStripSpace c

/-- The last character, if any, is not strip-whitespace. -/
def lastTrimmed (l : List Char) : Bool :=
  match l.getLast? with
  | none => true
  | some c => !isStripSpace c

/-- A page text on which the chunking loop with `S = 20`, `O = 19` cycles:
eleven `'a'`s, a period, and thirty-one more `'a'`s (43 characters). -/
def cycleText : List Char :=
  List.replicate 11 'a' ++ '.' :: List.replicate 31 'a'

/-- The list of naturals is non-decreasing. -/
def monoNat : List Nat → Bool
  | [] => true
  | [_] => true
  | a :: b :: t => (a ≤ b : Bool) && monoNat (b :: t)

/-! ## Lemmas about `lastPos` and `rfind` -/

theorem lastPos_eq_none (s : List Char) (c : Char) (h : c ∉ s) : lastPos s c = none := by
  induction s with
  | nil => rfl
  | cons d rest ih =>
    have hd : d ≠ c := fun hdc => h (hdc ▸ List.mem_cons_self d rest)
    have hr : c ∉ rest := fun hc => h (List.mem_cons_of_mem d hc)
    simp [lastPos, ih hr, hd]

theorem rfind_eq_neg_one (s : List Char) (c : Char) (h : c ∉ s) : rfind s c = -1 := by
  simp [rfind, lastPos_eq_none s c h]

theorem lastPos_lt_length (s : List Char) (c : Char) (k : Nat) (h : lastPos s c = some k) :
    k < s.length := by
  induction s generalizing k with
  | nil => simp [lastPos] at h
  | cons d rest ih =>
    simp only [lastPos] at h
    cases hr : lastPos rest c with
    | none =>
      rw [hr] at h
      by_cases hd : d = c
      · simp only [List.length_cons]
        simp [hd] at h
        omega
      · simp [hd] at h
    | some k' =>
      rw [hr] at h
      simp only [Option.some.injEq] at h
      have := ih k' hr
      simp only [List.length_cons, ← h]
      omega

/-! ## Lemmas about `dropWhile`, `dropTrailing`, `pyStrip` -/

theorem mem_of_mem_dropWhile (p : Char → Bool) (l : List Char) (c : Char)
    (h : c ∈ l.dropWhile p) : c ∈ l := by
  induction l with
  | nil => simp [List.dropWhile] at h
  | cons d t ih =>
    simp only [List.dropWhile] at h
    by_cases hd : p d
    · simp only [hd] at h; exact List.mem_cons_of_mem d (ih h)
    · simp only [Bool.not_eq_true] at hd; simp only [hd] at h; exact h

theorem mem_of_mem_dropTrailing (p : Char → Bool) (l : List Char) (c : Char)
    (h : c ∈ dropTrailing p l) : c ∈ l := by
  induction l with
  | nil => simp [dropTrailing] at h
  | cons d t ih =>
    rcases hr : dropTrailing p t with _ | ⟨e, r⟩
    · simp only [dropTrailing, hr] at h
      by_cases hd : p d <;> simp [hd] at h
      simp [h]
    · simp only [dropTrailing, hr] at h
      rcases List.mem_cons.mp h with h1 | h1
      · simp [h1]
      · exact List.mem_cons_of_mem d (ih (hr ▸ h1))

theorem mem_of_mem_pyStrip (l : List Char) (c : Char) (h : c ∈ pyStrip l) : c ∈ l :=
  mem_of_mem_dropWhile _ _ _ (mem_of_mem_dropTrailing _ _ _ h)

theorem dropWhile_head?_false (p : Char → Bool) (l : List Char) (c : Char)
    (h : (l.dropWhile p).head? = some c) : p c = false := by
  induction l with
  | nil => simp [List.dropWhile] at h
  | cons d t ih =>
    simp only [List.dropWhile] at h
    by_cases hd : p d
    · simp only [hd] at h; exact ih h
    · simp only [Bool.not_eq_true] at hd; simp [hd] at h; rw [← h]; exact hd

theorem dropWhile_eq_self (p : Char → Bool) (l : List Char)
    (h : ∀ c, l.head? = some c → p c = false) : l.dropWhile p = l := by
  cases l with
  | nil => rfl
  | cons d t => simp [List.dropWhile, h d rfl]

theorem head?_dropTrailing (p : Char → Bool) (l : List Char)
    (h : dropTrailing p l ≠ []) : (dropTrailing p l).head? = l.head? := by
  cases l with
  | nil => simp [dropTrailing] at h
  | cons d t =>
    rcases hr : dropTrailing p t with _ | ⟨e, r⟩
    · simp only [dropTrailing, hr] at h ⊢
      by_cases hd : p d
      · simp [hd] at h
      · simp only [Bool.not_eq_true] at hd
        simp [hd]
    · simp only [dropTrailing, hr]
      rfl

theorem getLast?_dropTrailing_false (p : Char → Bool) (l : List Char) (c : Char)
    (h : (dropTrailing p l).getLast? = some c) : p c = false := by
  induction l with
  | nil => simp [dropTrailing] at h
  | cons d t ih =>
    rcases hr : dropTrailing p t with _ | ⟨e, r⟩
    · simp only [dropTrailing, hr] at h
      by_cases hd : p d
      · simp [hd] at h
      · simp only [Bool.not_eq_true] at hd
        simp [hd] at h
        rw [← h]; exact hd
    · simp only [dropTrailing, hr] at h
      rw [List.getLast?_cons_cons] at h
      exact ih (hr ▸ h)

theorem dropTrailing_eq_self (p : Char → Bool) (l : List Char)
    (h : ∀ c, l.getLast? = some c → p c = false) : dropTrailing p l = l := by
  induction l with
  | nil => rfl
  | cons d t ih =>
    simp only [dropTrailing]
    cases t with
    | nil =>
      have hd := h d (by simp)
      simp [dropTrailing, hd]
    | cons e t' =>
      have ht : dropTrailing p (e :: t') = e :: t' := by
        apply ih
        intro c hc
        exact h c (by rw [List.getLast?_cons_cons]; exact hc)
      rw [ht]

theorem pyStrip_head?_false (l : List Char) (c : Char)
    (h : (pyStrip l).head? = some c) : isStripSpace c = false := by
  unfold pyStrip at h
  have hne : dropTrailing isStripSpace (l.dropWhile isStripSpace) ≠ [] := by
    intro hnil; rw [hnil] at h; simp at h
  rw [head?_dropTrailing _ _ hne] at h
  exact dropWhile_head?_false _ _ _ h

theorem pyStrip_getLast?_false (l : List Char) (c : Char)
    (h : (pyStrip l).getLast? = some c) : isStripSpace c = false :=
  getLast?_dropTrailing_false _ _ _ h

theorem pyStrip_eq_self (l : List Char)
    (h1 : ∀ c, l.head? = some c → isStripSpace c = false)
    (h2 : ∀ c, l.getLast? = some c → isStripSpace c = false) :
    pyStrip l = l := by
  unfold pyStrip
  rw [dropWhile_eq_self _ _ h1]
  exact dropTrailing_eq_self _ _ h2

theorem pyStrip_idem (l : List Char) : pyStrip (pyStrip l) = pyStrip l :=
  pyStrip_eq_self _ (pyStrip_head?_false l) (pyStrip_getLast?_false l)

theorem length_dropTrailing_le (p : Char → Bool) (l : List Char) :
    (dropTrailing p l).length ≤ l.length := by
  induction l with
  | nil => simp [dropTrailing]
  | cons d t ih =>
    rcases hr : dropTrailing p t with _ | ⟨e, r⟩
    · simp only [dropTrailing, hr]
      by_cases hd : p d <;> simp [hd, List.length_cons]
    · simp only [dropTrailing, hr]
      rw [hr] at ih
      simp only [List.length_cons] at ih ⊢
      omega

theorem length_pyStrip_le (l : List Char) : (pyStrip l).length ≤ l.length :=
  le_trans (length_dropTrailing_le _ _) (List.dropWhile_suffix _).sublist.length_le

theorem dropTrailing_append (p : Char → Bool) (l : List Char) :
    ∃ v, l = dropTrailing p l ++ v := by
  induction l with
  | nil => exact ⟨[], rfl⟩
  | cons d t ih =>
    obtain ⟨v, hv⟩ := ih
    rcases hr : dropTrailing p t with _ | ⟨e, r⟩
    · rw [hr] at hv
      simp only [dropTrailing, hr]
      by_cases hd : p d
      · exact ⟨d :: t, by simp [hd]⟩
      · simp only [Bool.not_eq_true] at hd
        exact ⟨v, by simp [hd, hv]⟩
    · rw [hr] at hv
      simp only [dropTrailing, hr]
      exact ⟨v, by rw [List.cons_append, ← hv]⟩

theorem pyStrip_append (l : List Char) : ∃ u v, l = u ++ pyStrip l ++ v := by
  obtain ⟨v, hv⟩ := dropTrailing_append isStripSpace (l.dropWhile isStripSpace)
  refine ⟨l.takeWhile isStripSpace, v, ?_⟩
  unfold pyStrip
  conv_lhs => rw [← List.takeWhile_append_dropWhile (p := isStripSpace) (l := l)]
  rw [List.append_assoc, ← hv]

/-! ## Lemmas about `collapseWs` -/

theorem mem_collapseWsAux (b : Bool) (s : List Char) (d : Char)
    (h : d ∈ collapseWsAux b s) :
    d = ' ' ∨ (d ∈ s ∧ isRegexSpace d = false) := by
  induction s generalizing b with
  | nil => simp [collapseWsAux] at h
  | cons c rest ih =>
    simp only [collapseWsAux] at h
    by_cases hc : isRegexSpace c
    · rw [if_pos hc] at h
      cases b with
      | true =>
        rw [if_pos rfl] at h
        rcases ih true h with h1 | ⟨h2, h3⟩
        · exact Or.inl h1
        · exact Or.inr ⟨List.mem_cons_of_mem c h2, h3⟩
      | false =>
        rw [if_neg (by simp)] at h
        rcases List.mem_cons.mp h with h1 | h1
        · exact Or.inl h1
        · rcases ih true h1 with h2 | ⟨h3, h4⟩
          · exact Or.inl h2
          · exact Or.inr ⟨List.mem_cons_of_mem c h3, h4⟩
    · rw [if_neg hc] at h
      rcases List.mem_cons.mp h with h1 | h1
      · simp only [Bool.not_eq_true] at hc
        exact Or.inr ⟨h1 ▸ List.mem_cons_self c rest, h1 ▸ hc⟩
      · rcases ih false h1 with h2 | ⟨h3, h4⟩
        · exact Or.inl h2
        · exact Or.inr ⟨List.mem_cons_of_mem c h3, h4⟩

theorem head?_collapseWsAux_true (s : List Char) (d : Char)
    (h : (collapseWsAux true s).head? = some d) : isRegexSpace d = false := by
  induction s with
  | nil => simp [collapseWsAux] at h
  | cons c rest ih =>
    by_cases hc : isRegexSpace c
    · simp only [collapseWsAux, hc, if_true] at h
      exact ih h
    · simp only [collapseWsAux, hc, Bool.false_eq_true, if_false, List.head?_cons,
        Option.some.injEq] at h
      simp only [Bool.not_eq_true] at hc
      exact h ▸ hc

theorem noAdjSpace_cons (a : Char) (l : List Char)
    (h1 : ∀ d, l.head? = some d → (isRegexSpace a && isRegexSpace d) = false)
    (h2 : noAdjSpace l = true) : noAdjSpace (a :: l) = true := by
  cases l with
  | nil => rfl
  | cons d t => simp [noAdjSpace, h1 d rfl, h2]

theorem noAdjSpace_tail (a : Char) (l : List Char)
    (h : noAdjSpace (a :: l) = true) : noAdjSpace l = true := by
  cases l with
  | nil => rfl
  | cons d t =>
    simp only [noAdjSpace, Bool.and_eq_true] at h
    exact h.2

theorem noAdjSpace_pair (a d : Char) (l : List Char)
    (h : noAdjSpace (a :: l) = true) (hd : l.head? = some d) :
    (isRegexSpace a && isRegexSpace d) = false := by
  cases l with
  | nil => simp at hd
  | cons e t =>
    simp only [List.head?_cons, Option.some.injEq] at hd
    subst hd
    simp only [noAdjSpace, Bool.and_eq_true, Bool.not_eq_true'] at h
    exact h.1

theorem noAdjSpace_collapseWsAux (s : List Char) : ∀ b, noAdjSpace (collapseWsAux b s) = true := by
  induction s with
  | nil => intro b; rfl
  | cons c rest ih =>
    intro b
    simp only [collapseWsAux]
    by_cases hc : isRegexSpace c
    · rw [if_pos hc]
      cases b with
      | true => rw [if_pos rfl]; exact ih true
      | false =>
        rw [if_neg (by simp)]
        refine noAdjSpace_cons _ _ ?_ (ih true)
        intro d hd
        rw [head?_collapseWsAux_true rest d hd]
        simp
    · rw [if_neg hc]
      refine noAdjSpace_cons _ _ ?_ (ih false)
      intro d _
      simp only [Bool.not_eq_true] at hc
      rw [hc]
      simp

theorem noAdjSpace_collapseWs (s : List Char) : noAdjSpace (collapseWs s) = true :=
  noAdjSpace_collapseWsAux s false

theorem spacesBlank_collapseWs (s : List Char) : spacesBlank (collapseWs s) = true := by
  rw [spacesBlank, List.all_eq_true]
  intro d hd
  rcases mem_collapseWsAux false s d hd with h1 | ⟨_, h2⟩
  · subst h1; decide
  · simp [h2]

theorem noCtrl_removeCtrl (s : List Char) : noCtrl (removeCtrl s) = true := by
  rw [noCtrl, List.all_eq_true]
  intro d hd
  exact (List.mem_filter.mp hd).2

theorem noCtrl_collapseWs (s : List Char) (h : noCtrl s = true) :
    noCtrl (collapseWs s) = true := by
  rw [noCtrl, List.all_eq_true]
  intro d hd
  rcases mem_collapseWsAux false s d hd with h1 | ⟨h2, _⟩
  · subst h1; decide
  · exact (List.all_eq_true.mp h) d h2

theorem newline_not_mem_collapseWs (s : List Char) : '\n' ∉ collapseWs s := by
  intro h
  rcases mem_collapseWsAux false s '\n' h with h1 | ⟨_, h2⟩
  · exact absurd h1 (by decide)
  · exact absurd h2 (by decide)

/-! ## `subBlank` is inert after whitespace collapsing -/

theorem subBlankF_eq_self (fuel : Nat) (s : List Char) (h : '\n' ∉ s) :
    subBlankF fuel s = s := by
  induction fuel generalizing s with
  | zero => rfl
  | succ f ih =>
    cases s with
    | nil => rfl
    | cons c rest =>
      have hc : ¬(c = '\n') := fun hc => h (hc ▸ List.mem_cons_self c rest)
      simp only [subBlankF, if_neg hc]
      rw [ih rest (fun hm => h (List.mem_cons_of_mem c hm))]

theorem subBlank_eq_self (s : List Char) (h : '\n' ∉ s) : subBlank s = s :=
  subBlankF_eq_self _ _ h

theorem clean_text_eq_strip_collapse (s : List Char) :
    clean_text s = pyStrip (collapseWs (removeCtrl s)) := by
  unfold clean_text
  rw [subBlank_eq_self _ (newline_not_mem_collapseWs _)]

/-! ## Cleanedness invariants of `clean_text` output -/

theorem noAdjSpace_dropWhile (p : Char → Bool) (l : List Char)
    (h : noAdjSpace l = true) : noAdjSpace (l.dropWhile p) = true := by
  induction l with
  | nil => exact h
  | cons c t ih =>
    by_cases hc : p c
    · simp only [List.dropWhile, hc]
      exact ih (noAdjSpace_tail _ _ h)
    · simp only [Bool.not_eq_true] at hc
      simp only [List.dropWhile, hc]
      exact h

theorem noAdjSpace_dropTrailing (p : Char → Bool) (l : List Char)
    (h : noAdjSpace l = true) : noAdjSpace (dropTrailing p l) = true := by
  induction l with
  | nil => exact h
  | cons c t ih =>
    rcases hr : dropTrailing p t with _ | ⟨e, r⟩
    · simp only [dropTrailing, hr]
      by_cases hc : p c
      · simp only [hc, if_true]; rfl
      · simp only [Bool.not_eq_true] at hc
        simp only [hc, Bool.false_eq_true, if_false]; rfl
    · simp only [dropTrailing, hr]
      refine noAdjSpace_cons _ _ ?_ (hr ▸ ih (noAdjSpace_tail _ _ h))
      intro d hd
      have hhd : t.head? = some d := by
        have h2 := head?_dropTrailing p t (by rw [hr]; simp)
        rw [hr] at h2
        simp only [List.head?_cons] at h2
        simp only [List.head?_cons, Option.some.injEq] at hd
        rw [← h2, hd]
      exact noAdjSpace_pair c d t h hhd

theorem noAdjSpace_pyStrip (l : List Char) (h : noAdjSpace l = true) :
    noAdjSpace (pyStrip l) = true :=
  noAdjSpace_dropTrailing _ _ (noAdjSpace_dropWhile _ _ h)

theorem spacesBlank_pyStrip (l : List Char) (h : spacesBlank l = true) :
    spacesBlank (pyStrip l) = true := by
  rw [spacesBlank, List.all_eq_true]
  exact fun d hd => (List.all_eq_true.mp h) d (mem_of_mem_pyStrip l d hd)

theorem noCtrl_pyStrip (l : List Char) (h : noCtrl l = true) :
    noCtrl (pyStrip l) = true := by
  rw [noCtrl, List.all_eq_true]
  exact fun d hd => (List.all_eq_true.mp h) d (mem_of_mem_pyStrip l d hd)

theorem headTrimmed_pyStrip (l : List Char) : headTrimmed (pyStrip l) = true := by
  rw [headTrimmed]
  cases h : (pyStrip l).head? with
  | none => rfl
  | some c => simp [pyStrip_head?_false l c h]

theorem lastTrimmed_pyStrip (l : List Char) : lastTrimmed (pyStrip l) = true := by
  rw [lastTrimmed]
  cases h : (pyStrip l).getLast? with
  | none => rfl
  | some c => simp [pyStrip_getLast?_false l c h]

theorem noCtrl_clean_text (s : List Char) : noCtrl (clean_text s) = true := by
  rw [clean_text_eq_strip_collapse]
  exact noCtrl_pyStrip _ (noCtrl_collapseWs _ (noCtrl_removeCtrl s))

theorem spacesBlank_clean_text (s : List Char) : spacesBlank (clean_text s) = true := by
  rw [clean_text_eq_strip_collapse]
  exact spacesBlank_pyStrip _ (spacesBlank_collapseWs _)

theorem noAdjSpace_clean_text (s : List Char) : noAdjSpace (clean_text s) = true := by
  rw [clean_text_eq_strip_collapse]
  exact noAdjSpace_pyStrip _ (noAdjSpace_collapseWs _)

theorem headTrimmed_clean_text (s : List Char) : headTrimmed (clean_text s) = true := by
  rw [clean_text_eq_strip_collapse]; exact headTrimmed_pyStrip _

theorem lastTrimmed_clean_text (s : List Char) : lastTrimmed (clean_text s) = true := by
  rw [clean_text_eq_strip_collapse]; exact lastTrimmed_pyStrip _

theorem newline_not_mem_of_spacesBlank (l : List Char) (h : spacesBlank l = true) :
    '\n' ∉ l := by
  intro hm
  have := (List.all_eq_true.mp h) _ hm
  revert this
  decide

/-- The fixpoint lemma: whitespace collapsing is inert on a list whose
whitespace is already collapsed. -/
theorem collapseWsAux_fix (t : List Char) (hs : spacesBlank t = true)
    (ha : noAdjSpace t = true) :
    collapseWsAux false t = t ∧
      ((∀ d, t.head? = some d → isRegexSpace d = false) → collapseWsAux true t = t) := by
  induction t with
  | nil => exact ⟨rfl, fun _ => rfl⟩
  | cons c rest ih =>
    have hs' : spacesBlank rest = true := by
      rw [spacesBlank, List.all_eq_true]
      exact fun d hd => (List.all_eq_true.mp hs) d (List.mem_cons_of_mem c hd)
    obtain ⟨ih1, ih2⟩ := ih hs' (noAdjSpace_tail _ _ ha)
    by_cases hc : isRegexSpace c
    · have hcBlank : c = ' ' := by
        have := (List.all_eq_true.mp hs) c (List.mem_cons_self c rest)
        simp only [hc, Bool.not_true, Bool.false_or, beq_iff_eq] at this
        exact this
      have hrest : collapseWsAux true rest = rest := by
        apply ih2
        intro d hd
        have := noAdjSpace_pair c d rest ha hd
        simp only [hc, Bool.true_and] at this
        exact this
      constructor
      · subst hcBlank
        simp only [collapseWsAux, hc, if_true, Bool.false_eq_true, if_false, hrest]
      · intro hhead
        exact absurd (hhead c rfl) (by simp [hc])
    · constructor
      · simp only [collapseWsAux, hc, Bool.false_eq_true, if_false, ih1]
      · intro _
        simp only [collapseWsAux, hc, Bool.false_eq_true, if_false, ih1]

theorem collapseWs_eq_self (t : List Char) (hs : spacesBlank t = true)
    (ha : noAdjSpace t = true) : collapseWs t = t :=
  (collapseWsAux_fix t hs ha).1

theorem removeCtrl_eq_self (t : List Char) (h : noCtrl t = true) : removeCtrl t = t :=
  List.filter_eq_self.mpr (List.all_eq_true.mp h)

theorem pyStrip_eq_self_of_trimmed (t : List Char) (h4 : headTrimmed t = true)
    (h5 : lastTrimmed t = true) : pyStrip t = t := by
  apply pyStrip_eq_self
  · intro c hc
    rw [headTrimmed, hc] at h4
    simpa using h4
  · intro c hc
    rw [lastTrimmed, hc] at h5
    simpa using h5

/-- Any list satisfying the five cleanedness invariants is a fixpoint of
`clean_text`. -/
theorem clean_text_fix (t : List Char) (h1 : noCtrl t = true) (h2 : spacesBlank t = true)
    (h3 : noAdjSpace t = true) (h4 : headTrimmed t = true) (h5 : lastTrimmed t = true) :
    clean_text t = t := by
  unfold clean_text
  rw [removeCtrl_eq_self t h1, collapseWs_eq_self t h2 h3,
    subBlank_eq_self t (newline_not_mem_of_spacesBlank t h2),
    pyStrip_eq_self_of_trimmed t h4 h5]

theorem pyStrip_clean_text (s : List Char) : pyStrip (clean_text s) = clean_text s :=
  pyStrip_eq_self_of_trimmed _ (headTrimmed_clean_text s) (lastTrimmed_clean_text s)

theorem mem_of_mem_pySlice (s : List Char) (a b : Int) (c : Char)
    (h : c ∈ pySlice s a b) : c ∈ s := by
  unfold pySlice at h
  exact List.mem_of_mem_take (List.mem_of_mem_drop h)

/-! ## Claim theorems about `clean_text` -/

/-- C7: for every input string `text`, `clean_text (clean_text text) =
clean_text text` — the cleaner is idempotent. -/
theorem clean_text_idempotent (s : List Char) :
    clean_text (clean_text s) = clean_text s :=
  clean_text_fix _ (noCtrl_clean_text s) (spacesBlank_clean_text s)
    (noAdjSpace_clean_text s) (headTrimmed_clean_text s) (lastTrimmed_clean_text s)

/-- C3 (counterexample): the input `"a\n\n\nb"` contains two consecutive blank
lines, but the cleaned output is `"a b"` — it contains no newline at all, so
in particular no blank line (double newline) survives at that position. -/
theorem blank_lines_counterexample :
    clean_text ("a\n\n\nb".data) = "a b".data ∧ '\n' ∉ clean_text ("a\n\n\nb".data) := by
  constructor
  · decide
  · decide

/-- C3 (amended): the blank-line-collapsing substitution of `clean_text`
(`re.sub(r'\n\s*\n', '\n\n', ...)`) is the identity on its input, because the
preceding whitespace collapsing has already replaced every newline (and the
rest of each blank-line run) by a single space; consequently `clean_text` is
just control-removal, whitespace collapsing and stripping. -/
theorem blank_line_collapse_inert (s : List Char) :
    subBlank (collapseWs (removeCtrl s)) = collapseWs (removeCtrl s) ∧
      clean_text s = pyStrip (collapseWs (removeCtrl s)) :=
  ⟨subBlank_eq_self _ (newline_not_mem_collapseWs _), clean_text_eq_strip_collapse s⟩

/-- C9: the output of `clean_text` contains no newline character, so the
chunker's backward search for a newline in any window of cleaned text
(`chunk_text.rfind('\n')`) always returns `-1`. -/
theorem clean_text_no_newline (s : List Char) :
    '\n' ∉ clean_text s ∧ ∀ a b : Int, rfind (pySlice (clean_text s) a b) '\n' = -1 := by
  have h : '\n' ∉ clean_text s :=
    newline_not_mem_of_spacesBlank _ (spacesBlank_clean_text s)
  refine ⟨h, fun a b => rfind_eq_neg_one _ _ ?_⟩
  intro hm
  exact h (mem_of_mem_pySlice _ a b _ hm)

/-! ## Claim theorems about the `S = 20`, `O = 5` boundary scenario -/

/-- C1 (counterexample): for the page text
`"Sentence one. Sentence two. Sentence three."` with `S = 20`, `O = 5`, the
second chunk's window does not start at offset `14 - 5 = 9` of the cleaned
text: the first loop iteration sets the next `start` to `8`. -/
theorem chunk_boundary_scenario_counterexample :
    ¬ ((chunkStep (clean_text "Sentence one. Sentence two. Sentence three.".data) 20 5 0).2
        = 14 - 5) := by
  decide

/-- C1 (amended): in that scenario the backward search finds the period at
window-relative offset `12`, which exceeds `20 * 0.5 = 10`, so the first
emitted chunk is `"Sentence one."` (13 characters, window end adjusted to
`13`), and the second chunk's window starts at offset `13 - 5 = 8`. -/
theorem chunk_boundary_scenario :
    rfind (pySlice (clean_text "Sentence one. Sentence two. Sentence three.".data) 0 20) '.'
        = 12 ∧
      2 * 12 > 20 ∧
      chunkStep (clean_text "Sentence one. Sentence two. Sentence three.".data) 20 5 0
        = (some "Sentence one.".data, 13 - 5) := by
  refine ⟨by decide, by decide, by decide⟩

/-! ## Termination of the per-page loop -/

theorem chunkStep_progress (text : List Char) (S O : Nat) (start : Int)
    (hS : 1 ≤ S) (hO : 2 * O ≤ S) (h : start < (text.length : Int)) :
    (chunkStep text S O start).2 = (text.length : Int) ∨
      start + 1 ≤ (chunkStep text S O start).2 := by
  simp only [chunkStep, windowAdjusted]
  split_ifs with h1 h2 h3 <;> simp only [] <;> omega

theorem runPageAux_succ_some (text : List Char) (S O pg f : Nat) (start : Int) (cid : Nat)
    (ns : Int) (t : List Char) (h : start < (text.length : Int))
    (hstep : chunkStep text S O start = (some t, ns)) :
    runPageAux text S O pg (f + 1) start cid =
      (runPageAux text S O pg f ns (cid + 1)).map
        (fun r => ({ id := cid, page := pg, text := t } :: r.1, r.2)) := by
  simp only [runPageAux, if_pos h, hstep]

theorem runPageAux_succ_none (text : List Char) (S O pg f : Nat) (start : Int) (cid : Nat)
    (ns : Int) (h : start < (text.length : Int))
    (hstep : chunkStep text S O start = (none, ns)) :
    runPageAux text S O pg (f + 1) start cid = runPageAux text S O pg f ns cid := by
  simp only [runPageAux, if_pos h, hstep]

theorem runPageAux_end (text : List Char) (S O pg fuel : Nat) (start : Int) (cid : Nat)
    (h : ¬ start < (text.length : Int)) :
    runPageAux text S O pg fuel start cid = some ([], cid) := by
  cases fuel <;> simp [runPageAux, h]

theorem runPageAux_isSome (text : List Char) (S O pg : Nat) (hS : 1 ≤ S) (hO : 2 * O ≤ S) :
    ∀ (n : Nat) (start : Int) (cid : Nat), (text.length : Int) - start ≤ (n : Int) →
      (runPageAux text S O pg (n + 1) start cid).isSome = true := by
  intro n
  induction n with
  | zero =>
    intro start cid hn
    have h : ¬ (start < (text.length : Int)) := by simp at hn; omega
    rw [runPageAux_end text S O pg 1 start cid h]
    rfl
  | succ m ih =>
    intro start cid hn
    by_cases h : start < (text.length : Int)
    · rcases hm : chunkStep text S O start with ⟨em, ns⟩
      have hp := chunkStep_progress text S O start hS hO h
      rw [hm] at hp
      have hns : (text.length : Int) - ns ≤ (m : Int) := by
        push_cast at hn ⊢
        rcases hp with hp | hp <;> omega
      cases em with
      | some t =>
        rw [runPageAux_succ_some text S O pg (m + 1) start cid ns t h hm]
        have hih := ih ns (cid + 1) hns
        cases hr : runPageAux text S O pg (m + 1) ns (cid + 1) with
        | none => rw [hr] at hih; simp at hih
        | some r => rfl
      | none =>
        rw [runPageAux_succ_none text S O pg (m + 1) start cid ns h hm]
        exact ih ns cid hns
    · rw [runPageAux_end text S O pg (m + 1 + 1) start cid h]
      rfl

/-- C2 (amended): for every page text, chunk size `S ≥ 1` and overlap with
`2 * O ≤ S` (overlap at most half the chunk size, as with the defaults
`S = 500`, `O = 100`), the per-page chunking loop of `create_chunks`
terminates: fuel `text.length + 1` always suffices, because every iteration
either jumps `start` to the text length or advances it by at least one. -/
theorem page_loop_terminates (text : List Char) (S O pg cid : Nat)
    (hS : 1 ≤ S) (hO : 2 * O ≤ S) :
    (runPageAux text S O pg (text.length + 1) 0 cid).isSome = true :=
  runPageAux_isSome text S O pg hS hO text.length 0 cid (by omega)

theorem page_loop_terminates_witness :
    (1 ≤ 20 ∧ 2 * 5 ≤ 20) ∧
      (runPageAux "Sentence one.".data 20 5 1 ("Sentence one.".data.length + 1) 0 0).isSome
        = true :=
  ⟨⟨by decide, by decide⟩,
    page_loop_terminates "Sentence one.".data 20 5 1 0 (by decide) (by decide)⟩

/-- On `cycleText` with `S = 20`, `O = 19`, the loop's `start` cycles through
`0, -7, -6, …, -1, 0, …` and never reaches the end of the text. -/
theorem runPageAux_cycle_none (pg : Nat) :
    ∀ fuel (start : Int) (cid : Nat),
      (start = 0 ∨ start = -7 ∨ start = -6 ∨ start = -5 ∨ start = -4 ∨
        start = -3 ∨ start = -2 ∨ start = -1) →
      runPageAux cycleText 20 19 pg fuel start cid = none := by
  intro fuel
  induction fuel with
  | zero =>
    intro start cid hs
    have h : start < (cycleText.length : Int) := by
      rcases hs with h | h | h | h | h | h | h | h <;> subst h <;> decide
    simp [runPageAux, h]
  | succ f ih =>
    intro start cid hs
    rcases hs with h0 | h0 | h0 | h0 | h0 | h0 | h0 | h0 <;> subst h0
    · rw [runPageAux_succ_some cycleText 20 19 pg f 0 cid (-7)
          (List.replicate 11 'a' ++ ['.']) (by decide) (by decide),
        ih (-7) (cid + 1) (by decide)]
      rfl
    · rw [runPageAux_succ_none cycleText 20 19 pg f (-7) cid (-6) (by decide) (by decide)]
      exact ih (-6) cid (by decide)
    · rw [runPageAux_succ_none cycleText 20 19 pg f (-6) cid (-5) (by decide) (by decide)]
      exact ih (-5) cid (by decide)
    · rw [runPageAux_succ_none cycleText 20 19 pg f (-5) cid (-4) (by decide) (by decide)]
      exact ih (-4) cid (by decide)
    · rw [runPageAux_succ_none cycleText 20 19 pg f (-4) cid (-3) (by decide) (by decide)]
      exact ih (-3) cid (by decide)
    · rw [runPageAux_succ_none cycleText 20 19 pg f (-3) cid (-2) (by decide) (by decide)]
      exact ih (-2) cid (by decide)
    · rw [runPageAux_succ_none cycleText 20 19 pg f (-2) cid (-1) (by decide) (by decide)]
      exact ih (-1) cid (by decide)
    · rw [runPageAux_succ_none cycleText 20 19 pg f (-1) cid 0 (by decide) (by decide)]
      exact ih 0 cid (by decide)

/-- C2 (counterexample): `S = 20 > 0` and `O = 19 < S` satisfy the claim's
hypotheses, `cycleText` is a fixpoint of `clean_text` (so it occurs as the
cleaned text of a page), yet the per-page loop of `create_chunks` does not
terminate on it: no amount of fuel makes `runPageAux` finish. -/
theorem page_loop_nontermination_counterexample :
    (0 < 20 ∧ 19 < 20) ∧ clean_text cycleText = cycleText ∧
      ¬ pageLoopTerminates cycleText 20 19 := by
  refine ⟨⟨by decide, by decide⟩, by decide, ?_⟩
  intro hterm
  obtain ⟨fuel, hf⟩ := hterm 1 0
  rw [runPageAux_cycle_none 1 fuel 0 0 (Or.inl rfl)] at hf
  simp at hf

/-! ## Chunk ids are consecutive -/

theorem range'_append_simple (s m n : Nat) :
    List.range' s m ++ List.range' (s + m) n = List.range' s (m + n) := by
  simp [Nat.add_comm]

theorem runPageAux_ids (text : List Char) (S O pg : Nat) :
    ∀ (fuel : Nat) (start : Int) (cid : Nat) (cs : List Chunk) (cid' : Nat),
      runPageAux text S O pg fuel start cid = some (cs, cid') →
      cs.map Chunk.id = List.range' cid cs.length ∧ cid' = cid + cs.length := by
  intro fuel
  induction fuel with
  | zero =>
    intro start cid cs cid' h
    by_cases hs : start < (text.length : Int)
    · simp [runPageAux, hs] at h
    · rw [runPageAux_end text S O pg 0 start cid hs] at h
      simp only [Option.some.injEq, Prod.mk.injEq] at h
      obtain ⟨h1, h2⟩ := h
      subst h1; subst h2
      simp
  | succ f ih =>
    intro start cid cs cid' h
    by_cases hs : start < (text.length : Int)
    · rcases hm : chunkStep text S O start with ⟨em, ns⟩
      cases em with
      | some t =>
        rw [runPageAux_succ_some text S O pg f start cid ns t hs hm] at h
        cases hr : runPageAux text S O pg f ns (cid + 1) with
        | none => rw [hr] at h; simp at h
        | some r =>
          obtain ⟨rc, rcid⟩ := r
          rw [hr] at h
          simp only [Option.map_some', Option.some.injEq, Prod.mk.injEq] at h
          obtain ⟨h1, h2⟩ := h
          obtain ⟨hih1, hih2⟩ := ih ns (cid + 1) rc rcid hr
          subst h1; subst h2
          constructor
          · simp only [List.map_cons, List.length_cons, hih1]
            rw [List.range'_succ]
          · simp only [List.length_cons]
            omega
      | none =>
        rw [runPageAux_succ_none text S O pg f start cid ns hs hm] at h
        exact ih ns cid cs cid' h
    · rw [runPageAux_end text S O pg (f + 1) start cid hs] at h
      simp only [Option.some.injEq, Prod.mk.injEq] at h
      obtain ⟨h1, h2⟩ := h
      subst h1; subst h2
      simp

theorem create_chunksAux_ids (S O fuel : Nat) :
    ∀ (pages : List Page) (cid : Nat) (cs : List Chunk),
      create_chunksAux S O fuel pages cid = some cs →
      cs.map Chunk.id = List.range' cid cs.length := by
  intro pages
  induction pages with
  | nil =>
    intro cid cs h
    simp only [create_chunksAux, Option.some.injEq] at h
    subst h
    simp
  | cons p ps ih =>
    intro cid cs h
    simp only [create_chunksAux] at h
    by_cases hcl : clean_text p.text = []
    · rw [if_pos hcl] at h
      exact ih cid cs h
    · rw [if_neg hcl] at h
      cases hr : runPageAux (clean_text p.text) S O p.page fuel 0 cid with
      | none => rw [hr] at h; simp at h
      | some r =>
        obtain ⟨rc, rcid⟩ := r
        rw [hr] at h
        dsimp only at h
        cases hr2 : create_chunksAux S O fuel ps rcid with
        | none => rw [hr2] at h; simp at h
        | some rest =>
          rw [hr2] at h
          simp only [Option.map_some', Option.some.injEq] at h
          obtain ⟨h1, h2⟩ := runPageAux_ids (clean_text p.text) S O p.page fuel 0 cid rc rcid hr
          have h3 := ih rcid rest hr2
          subst h
          rw [List.map_append, h1, h3, h2, List.length_append]
          exact range'_append_simple cid rc.length rest.length

theorem reassign_map_id (n : Nat) (name : String) (cs : List Chunk) :
    (reassign n name cs).map SChunk.id = (cs.map Chunk.id).map (fun k => n + k) := by
  simp [reassign, List.map_map]

theorem reassign_length (n : Nat) (name : String) (cs : List Chunk) :
    (reassign n name cs).length = cs.length := by
  simp [reassign]

theorem reassign_map_source (n : Nat) (name : String) (cs : List Chunk) :
    (reassign n name cs).map SChunk.source = List.replicate cs.length name := by
  simp only [reassign, List.map_map]
  exact List.map_const' cs name

theorem mainAccum_ids (S O fuel : Nat) :
    ∀ (inputs : List (String × List Page)) (acc all : List SChunk),
      mainAccum S O fuel inputs acc = some all →
      acc.map SChunk.id = List.range acc.length →
      all.map SChunk.id = List.range all.length := by
  intro inputs
  induction inputs with
  | nil =>
    intro acc all h hacc
    simp only [mainAccum, Option.some.injEq] at h
    subst h
    exact hacc
  | cons nb rest ih =>
    intro acc all h hacc
    obtain ⟨name, pages⟩ := nb
    simp only [mainAccum] at h
    cases hc : create_chunks pages S O fuel with
    | none => rw [hc] at h; simp at h
    | some cs =>
      rw [hc] at h
      refine ih _ all h ?_
      have hcs : cs.map Chunk.id = List.range' 0 cs.length :=
        create_chunksAux_ids S O fuel pages 0 cs hc
      rw [List.map_append, hacc, reassign_map_id, hcs, List.map_add_range',
        List.length_append, reassign_length, List.range_eq_range', List.range_eq_range',
        Nat.add_zero]
      have hra := range'_append_simple 0 acc.length cs.length
      rw [Nat.zero_add] at hra
      exact hra

/-- C4: over the full accumulated chunk sequence across all processed PDFs
(after `main`'s id-reassignment pass), chunk ids are exactly
`0, 1, 2, …` in emission order — unique and strictly increasing; in
particular, when a first PDF yields 3 chunks and a second yields 2, the
final ids are `[0, 1, 2, 3, 4]` and the second PDF's chunks carry its own
source file name. -/
theorem global_ids_unique_increasing (S O fuel : Nat) (inputs : List (String × List Page))
    (all : List SChunk) (h : mainAccum S O fuel inputs [] = some all) :
    all.map SChunk.id = List.range all.length ∧
      (∀ n1 p1 n2 p2 cs1 cs2, inputs = [(n1, p1), (n2, p2)] →
        create_chunks p1 S O fuel = some cs1 → cs1.length = 3 →
        create_chunks p2 S O fuel = some cs2 → cs2.length = 2 →
        all.map SChunk.id = [0, 1, 2, 3, 4] ∧
          (all.drop 3).map SChunk.source = [n2, n2]) := by
  have hmain : all.map SChunk.id = List.range all.length :=
    mainAccum_ids S O fuel inputs [] all h (by simp)
  refine ⟨hmain, ?_⟩
  intro n1 p1 n2 p2 cs1 cs2 hin hc1 hl1 hc2 hl2
  subst hin
  simp only [mainAccum] at h
  rw [hc1, hc2] at h
  simp only [Option.some.injEq, List.nil_append, List.length_nil] at h
  have hlen1 : (reassign 0 n1 cs1).length = 3 := by rw [reassign_length, hl1]
  subst h
  have hlen : (reassign 0 n1 cs1 ++ reassign (reassign 0 n1 cs1).length n2 cs2).length = 5 := by
    rw [List.length_append, reassign_length, reassign_length, hl1, hl2]
  constructor
  · rw [hmain, hlen]
    rfl
  · rw [← hlen1, List.drop_left, reassign_map_source, hl2]
    rfl

theorem global_ids_witness :
    ([{ id := 0, page := 1, text := "a".data, source := "a.pdf" },
      { id := 1, page := 2, text := "b".data, source := "a.pdf" },
      { id := 2, page := 3, text := "c".data, source := "a.pdf" },
      { id := 3, page := 1, text := "d".data, source := "b.pdf" },
      { id := 4, page := 2, text := "e".data, source := "b.pdf" }] : List SChunk).map SChunk.id
      = List.range 5 :=
  (global_ids_unique_increasing 500 100 1
    [("a.pdf", [⟨1, "a".data⟩, ⟨2, "b".data⟩, ⟨3, "c".data⟩]),
     ("b.pdf", [⟨1, "d".data⟩, ⟨2, "e".data⟩])]
    _ (by decide)).1

/-! ## Batching in `save_chunks` -/

theorem take_min_length (l : List Chunk) (n : Nat) :
    l.take (min n l.length) = l.take n := by
  rcases le_total n l.length with h | h
  · rw [Nat.min_eq_left h]
  · rw [Nat.min_eq_right h, List.take_of_length_le h, List.take_of_length_le le_rfl]

theorem join_batches (B : Nat) :
    ∀ (n : Nat) (l : List Chunk), l.length ≤ n * B →
      ((List.range n).map (fun i => (l.take ((i + 1) * B)).drop (i * B))).flatten = l := by
  intro n
  induction n with
  | zero =>
    intro l h
    simp only [Nat.zero_mul, Nat.le_zero] at h
    rw [List.eq_nil_of_length_eq_zero h]
    rfl
  | succ m ih =>
    intro l h
    rw [List.range_succ_eq_map]
    simp only [List.map_cons, List.map_map, List.flatten_cons]
    have hhead : (l.take ((0 + 1) * B)).drop (0 * B) = l.take B := by
      simp
    have hshift : ∀ i : Nat,
        (l.take ((Nat.succ i + 1) * B)).drop (Nat.succ i * B)
          = ((l.drop B).take ((i + 1) * B)).drop (i * B) := by
      intro i
      rw [List.take_drop B ((i + 1) * B) l, List.drop_drop]
      have e1 : B + (i + 1) * B = (Nat.succ i + 1) * B := by
        simp only [Nat.succ_eq_add_one]
        ring
      have e2 : B + i * B = Nat.succ i * B := by
        simp only [Nat.succ_eq_add_one]
        ring
      rw [e1, e2]
    have hmap : (List.range m).map ((fun i => (l.take ((i + 1) * B)).drop (i * B)) ∘ Nat.succ)
        = (List.range m).map (fun i => ((l.drop B).take ((i + 1) * B)).drop (i * B)) := by
      apply List.map_congr_left
      intro a _
      simp only [Function.comp_apply]
      exact hshift a
    rw [hhead, hmap, ih (l.drop B) (by
      rw [List.length_drop]
      have hsm : (m + 1) * B = m * B + B := by ring
      omega)]
    exact List.take_append_drop B l

/-- C5: `save_chunks` partitions the chunk list into consecutive batches of at
most `B` chunks (every batch except possibly the last is exactly `B`),
concatenating the batches in file order and flattening reproduces the original
sequence, the returned value is the number of batch files, and 250 chunks with
`B = 100` yield 3 batches of sizes 100, 100, 50. -/
theorem save_chunks_partition (chunks : List Chunk) (B : Nat) (hB : 0 < B) :
    ((save_chunks chunks B).1.flatten = chunks) ∧
      ((save_chunks chunks B).2 = (save_chunks chunks B).1.length) ∧
      (∀ b ∈ (save_chunks chunks B).1, b.length ≤ B) ∧
      (∀ i b, (save_chunks chunks B).1[i]? = some b →
        i + 1 < (save_chunks chunks B).1.length → b.length = B) ∧
      (chunks.length = 250 → B = 100 →
        (save_chunks chunks B).1.map List.length = [100, 100, 50] ∧
          (save_chunks chunks B).2 = 3) := by
  have hdm := Nat.div_add_mod (chunks.length + B - 1) B
  have hmod : (chunks.length + B - 1) % B < B := Nat.mod_lt _ hB
  set L := chunks.length with hL
  set n := (L + B - 1) / B with hn
  have hub : L ≤ n * B := by
    rw [Nat.mul_comm]
    omega
  have hbatch : (save_chunks chunks B).1
      = (List.range n).map (fun i => (chunks.take ((i + 1) * B)).drop (i * B)) := by
    simp only [save_chunks, ← hL, ← hn]
    apply List.map_congr_left
    intro i _
    rw [hL, take_min_length]
  refine ⟨?_, ?_, ?_, ?_, ?_⟩
  · rw [hbatch]
    exact join_batches B n chunks hub
  · rw [hbatch]
    simp only [save_chunks, List.length_map, List.length_range, ← hL, ← hn]
  · intro b hb
    rw [hbatch] at hb
    obtain ⟨i, _, hib⟩ := List.mem_map.mp hb
    subst hib
    rw [List.length_drop, List.length_take]
    have h1 : (i + 1) * B = i * B + B := by ring
    omega
  · intro i b hib hilt
    have hlen : (save_chunks chunks B).1.length = n := by
      rw [hbatch]
      simp
    rw [hlen] at hilt
    rw [hbatch, List.getElem?_map, List.getElem?_range (by omega)] at hib
    simp only [Option.map_some', Option.some.injEq] at hib
    subst hib
    rw [List.length_drop, List.length_take, ← hL]
    have h1 : (i + 1) * B ≤ L := by
      have e1 : (i + 2) * B ≤ n * B := Nat.mul_le_mul_right B (by omega)
      have e2 : (i + 2) * B = (i + 1) * B + B := by ring
      rw [Nat.mul_comm n B] at e1
      omega
    have h2 : (i + 1) * B = i * B + B := by ring
    omega
  · intro h250 h100
    have hnval : n = 3 := by rw [hn, h250, h100]
    constructor
    · rw [hbatch, hnval]
      have hr3 : List.range 3 = [0, 1, 2] := rfl
      rw [hr3]
      simp only [List.map_cons, List.map_nil, List.length_drop, List.length_take, ← hL,
        h250, h100]
      decide
    · simp only [save_chunks, ← hL, ← hn, hnval]

theorem save_chunks_partition_witness :
    0 < 1 ∧
      (save_chunks [{ id := 0, page := 1, text := ['a'] }] 1).1.flatten
        = [{ id := 0, page := 1, text := ['a'] }] :=
  ⟨by decide,
    (save_chunks_partition [{ id := 0, page := 1, text := ['a'] }] 1 (by decide)).1⟩

/-! ## A short page yields a single chunk -/

theorem pySlice_all (s : List Char) (b : Int) (hb : (s.length : Int) ≤ b) :
    pySlice s 0 b = s := by
  unfold pySlice pyIdx
  rw [if_neg (by omega), if_neg (by omega)]
  have h1 : min b.toNat s.length = s.length := by omega
  have h2 : min (0 : Int).toNat s.length = 0 := by simp
  rw [h1, h2, List.drop_zero, List.take_length]

theorem chunkStep_whole (text : List Char) (S O : Nat)
    (hlen : text.length < S) (hstrip : pyStrip text = text) (hne : text ≠ []) :
    chunkStep text S O 0 = (some text, (text.length : Int)) := by
  have hslice : pySlice text 0 (0 + (S : Int)) = text :=
    pySlice_all text (0 + (S : Int)) (by omega)
  have hnotlt : ¬ ((0 : Int) + (S : Int) < (text.length : Int)) := by omega
  simp only [chunkStep, windowAdjusted, hslice, if_neg hnotlt]
  rw [hstrip, if_neg hne]

/-- C6: a page whose cleaned text is non-empty and strictly shorter than the
chunk size `S` yields exactly one chunk from `create_chunks`, whose text is
the page's cleaned (and therefore already trimmed) text. -/
theorem short_page_single_chunk (p : Page) (S O fuel : Nat) (hf : 0 < fuel)
    (hne : clean_text p.text ≠ []) (hlen : (clean_text p.text).length < S) :
    create_chunks [p] S O fuel
      = some [{ id := 0, page := p.page, text := clean_text p.text }] := by
  obtain ⟨f, rfl⟩ : ∃ f, fuel = f + 1 := ⟨fuel - 1, by omega⟩
  have hstep := chunkStep_whole (clean_text p.text) S O hlen (pyStrip_clean_text p.text) hne
  have hL : (0 : Int) < ((clean_text p.text).length : Int) := by
    have := List.length_pos.mpr hne
    omega
  simp only [create_chunks, create_chunksAux, if_neg hne]
  rw [runPageAux_succ_some (clean_text p.text) S O p.page f 0 0
    ((clean_text p.text).length : Int) (clean_text p.text) hL hstep]
  rw [runPageAux_end (clean_text p.text) S O p.page f ((clean_text p.text).length : Int) 1
    (by omega)]
  rfl

theorem short_page_single_chunk_witness :
    0 < 1 ∧ clean_text " hello ".data ≠ [] ∧ (clean_text " hello ".data).length < 500 ∧
      create_chunks [{ page := 1, text := " hello ".data }] 500 100 1
        = some [{ id := 0, page := 1, text := clean_text " hello ".data }] :=
  ⟨by decide, by decide, by decide,
    short_page_single_chunk { page := 1, text := " hello ".data } 500 100 1
      (by decide) (by decide) (by decide)⟩

/-! ## Emitted chunk texts: non-empty, bounded, contiguous -/

theorem pyIdx_le_length (L : Nat) (i : Int) : pyIdx L i ≤ L := by
  unfold pyIdx
  split_ifs <;> omega

theorem length_pySlice_le (s : List Char) (a : Int) (S : Nat) :
    (pySlice s a (a + (S : Int))).length ≤ S := by
  unfold pySlice
  rw [List.length_drop, List.length_take]
  have h1 : pyIdx s.length (a + (S : Int)) ≤ s.length := pyIdx_le_length _ _
  have key : pyIdx s.length (a + (S : Int)) ≤ pyIdx s.length a + S := by
    unfold pyIdx
    split_ifs <;> omega
  omega

theorem pySlice_decomp (s : List Char) (a b : Int) :
    ∃ u v, s = u ++ pySlice s a b ++ v := by
  refine ⟨(s.take (pyIdx s.length b)).take (pyIdx s.length a), s.drop (pyIdx s.length b), ?_⟩
  unfold pySlice
  conv_lhs => rw [← List.take_append_drop (pyIdx s.length b) s,
    ← List.take_append_drop (pyIdx s.length a) (s.take (pyIdx s.length b))]

theorem take_decomp (l : List Char) (n : Nat) : ∃ u v, l = u ++ l.take n ++ v :=
  ⟨[], l.drop n, by rw [List.nil_append, List.take_append_drop]⟩

theorem segment_trans (A B C : List Char) (h1 : ∃ u v, A = u ++ B ++ v)
    (h2 : ∃ u v, B = u ++ C ++ v) : ∃ u v, A = u ++ C ++ v := by
  obtain ⟨u1, v1, h1⟩ := h1
  obtain ⟨u2, v2, h2⟩ := h2
  exact ⟨u1 ++ u2, v2 ++ v1, by rw [h1, h2]; simp [List.append_assoc]⟩

theorem windowAdjusted_fst (text : List Char) (S : Nat) (start : Int) :
    (windowAdjusted text S start).1 = pySlice text start (start + (S : Int)) ∨
      ∃ m, (windowAdjusted text S start).1
        = (pySlice text start (start + (S : Int))).take m := by
  simp only [windowAdjusted]
  split_ifs with c1 c2
  · right; exact ⟨_, rfl⟩
  · left; rfl
  · left; rfl

theorem chunkStep_sound (text : List Char) (S O : Nat) (start : Int) (t : List Char) (ns : Int)
    (h : chunkStep text S O start = (some t, ns)) :
    t ≠ [] ∧ t.length ≤ S ∧ ∃ u v, text = u ++ t ++ v := by
  have hct : (pySlice text start (start + (S : Int))).length ≤ S := length_pySlice_le text start S
  have hdec := pySlice_decomp text start (start + (S : Int))
  simp only [chunkStep, Prod.mk.injEq] at h
  obtain ⟨h1, -⟩ := h
  rcases windowAdjusted_fst text S start with hw | ⟨m, hw⟩ <;> rw [hw] at h1
  · by_cases hc : pyStrip (pySlice text start (start + (S : Int))) = []
    · rw [if_pos hc] at h1
      exact absurd h1 (by simp)
    · rw [if_neg hc] at h1
      simp only [Option.some.injEq] at h1
      subst h1
      refine ⟨hc, le_trans (length_pyStrip_le _) hct, ?_⟩
      exact segment_trans _ _ _ hdec (pyStrip_append _)
  · by_cases hc : pyStrip ((pySlice text start (start + (S : Int))).take m) = []
    · rw [if_pos hc] at h1
      exact absurd h1 (by simp)
    · rw [if_neg hc] at h1
      simp only [Option.some.injEq] at h1
      subst h1
      refine ⟨hc, ?_, ?_⟩
      · refine le_trans (length_pyStrip_le _) ?_
        rw [List.length_take]
        omega
      · refine segment_trans _ _ _
          (segment_trans _ _ _ hdec (take_decomp (pySlice text start (start + (S : Int))) m))
          (pyStrip_append _)

theorem runPageAux_sound (text : List Char) (S O pg : Nat) :
    ∀ (fuel : Nat) (start : Int) (cid : Nat) (cs : List Chunk) (cid' : Nat),
      runPageAux text S O pg fuel start cid = some (cs, cid') →
      ∀ c ∈ cs, c.page = pg ∧ c.text ≠ [] ∧ c.text.length ≤ S ∧
        ∃ u v, text = u ++ c.text ++ v := by
  intro fuel
  induction fuel with
  | zero =>
    intro start cid cs cid' h c hc
    by_cases hs : start < (text.length : Int)
    · simp [runPageAux, hs] at h
    · rw [runPageAux_end text S O pg 0 start cid hs] at h
      simp only [Option.some.injEq, Prod.mk.injEq] at h
      rw [← h.1] at hc
      simp at hc
  | succ f ih =>
    intro start cid cs cid' h c hc
    by_cases hs : start < (text.length : Int)
    · rcases hm : chunkStep text S O start with ⟨em, ns⟩
      cases em with
      | some t =>
        rw [runPageAux_succ_some text S O pg f start cid ns t hs hm] at h
        cases hr : runPageAux text S O pg f ns (cid + 1) with
        | none => rw [hr] at h; simp at h
        | some r =>
          rw [hr] at h
          simp only [Option.map_some', Option.some.injEq, Prod.mk.injEq] at h
          rw [← h.1] at hc
          rcases List.mem_cons.mp hc with hc1 | hc1
          · subst hc1
            obtain ⟨he, hlen, hseg⟩ := chunkStep_sound text S O start t ns hm
            exact ⟨rfl, he, hlen, hseg⟩
          · exact ih ns (cid + 1) r.1 r.2 (by rw [hr]) c hc1
      | none =>
        rw [runPageAux_succ_none text S O pg f start cid ns hs hm] at h
        exact ih ns cid cs cid' h c hc
    · rw [runPageAux_end text S O pg (f + 1) start cid hs] at h
      simp only [Option.some.injEq, Prod.mk.injEq] at h
      rw [← h.1] at hc
      simp at hc

theorem create_chunksAux_sound (S O fuel : Nat) :
    ∀ (pages : List Page) (cid : Nat) (cs : List Chunk),
      create_chunksAux S O fuel pages cid = some cs →
      ∀ c ∈ cs, ∃ p ∈ pages, c.page = p.page ∧ c.text ≠ [] ∧ c.text.length ≤ S ∧
        ∃ u v, clean_text p.text = u ++ c.text ++ v := by
  intro pages
  induction pages with
  | nil =>
    intro cid cs h c hc
    simp only [create_chunksAux, Option.some.injEq] at h
    subst h
    simp at hc
  | cons p ps ih =>
    intro cid cs h c hc
    simp only [create_chunksAux] at h
    by_cases hcl : clean_text p.text = []
    · rw [if_pos hcl] at h
      obtain ⟨q, hq, hrest⟩ := ih cid cs h c hc
      exact ⟨q, List.mem_cons_of_mem p hq, hrest⟩
    · rw [if_neg hcl] at h
      cases hr : runPageAux (clean_text p.text) S O p.page fuel 0 cid with
      | none => rw [hr] at h; simp at h
      | some r =>
        rw [hr] at h
        dsimp only at h
        cases hr2 : create_chunksAux S O fuel ps r.2 with
        | none => rw [hr2] at h; simp at h
        | some rest =>
          rw [hr2] at h
          simp only [Option.map_some', Option.some.injEq] at h
          rw [← h] at hc
          rcases List.mem_append.mp hc with hc1 | hc1
          · obtain ⟨hpg, hrest⟩ :=
              runPageAux_sound (clean_text p.text) S O p.page fuel 0 cid r.1 r.2
                (by rw [hr]) c hc1
            exact ⟨p, List.mem_cons_self p ps, hpg, hrest⟩
          · obtain ⟨q, hq, hrest⟩ := ih r.2 rest hr2 c hc1
            exact ⟨q, List.mem_cons_of_mem p hq, hrest⟩

/-- C8: every chunk emitted by `create_chunks` has a non-empty text of length
at most the chunk size `S`, and that text is a contiguous substring of the
cleaned text of one of the input pages carrying the chunk's page number. -/
theorem chunk_text_invariants (pages : List Page) (S O fuel : Nat) (chunks : List Chunk)
    (h : create_chunks pages S O fuel = some chunks) :
    ∀ c ∈ chunks, c.text ≠ [] ∧ c.text.length ≤ S ∧
      ∃ p ∈ pages, c.page = p.page ∧ ∃ u v, clean_text p.text = u ++ c.text ++ v := by
  intro c hc
  obtain ⟨p, hp, hpg, hne, hlen, hseg⟩ := create_chunksAux_sound S O fuel pages 0 chunks h c hc
  exact ⟨hne, hlen, p, hp, hpg, hseg⟩

theorem chunk_text_invariants_witness :
    ({ id := 0, page := 1, text := "hello".data } : Chunk).text ≠ [] ∧
      ({ id := 0, page := 1, text := "hello".data } : Chunk).text.length ≤ 500 ∧
      ∃ p ∈ [({ page := 1, text := "hello".data } : Page)],
        ({ id := 0, page := 1, text := "hello".data } : Chunk).page = p.page ∧
        ∃ u v, clean_text p.text
          = u ++ ({ id := 0, page := 1, text := "hello".data } : Chunk).text ++ v :=
  chunk_text_invariants [{ page := 1, text := "hello".data }] 500 100 1
    [{ id := 0, page := 1, text := "hello".data }] (by decide)
    { id := 0, page := 1, text := "hello".data } (by decide)

/-! ## Page numbers are non-decreasing in emission order -/

theorem monoNat_tail (a : Nat) (l : List Nat) (h : monoNat (a :: l) = true) :
    monoNat l = true := by
  cases l with
  | nil => rfl
  | cons b t =>
    simp only [monoNat, Bool.and_eq_true] at h
    exact h.2

theorem monoNat_head_le (a : Nat) (l : List Nat) (h : monoNat (a :: l) = true) :
    ∀ b ∈ l, a ≤ b := by
  induction l generalizing a with
  | nil => intro b hb; simp at hb
  | cons c t ih =>
    intro b hb
    simp only [monoNat, Bool.and_eq_true] at h
    obtain ⟨h1, h2⟩ := h
    have hac : a ≤ c := of_decide_eq_true h1
    rcases List.mem_cons.mp hb with hb1 | hb1
    · subst hb1; exact hac
    · exact le_trans hac (ih c h2 b hb1)

theorem monoNat_append_const (v : Nat) (l1 l2 : List Nat)
    (h1 : ∀ x ∈ l1, x = v) (h2 : ∀ y ∈ l2, v ≤ y) (h3 : monoNat l2 = true) :
    monoNat (l1 ++ l2) = true := by
  induction l1 with
  | nil => simpa using h3
  | cons a t ih =>
    have hav : a = v := h1 a (List.mem_cons_self a t)
    have ht : ∀ x ∈ t, x = v := fun x hx => h1 x (List.mem_cons_of_mem a hx)
    have htail := ih ht
    simp only [List.cons_append]
    cases hc : t ++ l2 with
    | nil => rfl
    | cons b r =>
      have hb : b ∈ t ++ l2 := by rw [hc]; exact List.mem_cons_self b r
      have hab : a ≤ b := by
        rcases List.mem_append.mp hb with hbt | hbl
        · have := ht b hbt; omega
        · have := h2 b hbl; omega
      have hm : monoNat (b :: r) = true := by rw [← hc]; exact htail
      simp only [monoNat, Bool.and_eq_true]
      exact ⟨decide_eq_true hab, hm⟩

theorem create_chunksAux_mono (S O fuel : Nat) :
    ∀ (pages : List Page) (cid : Nat) (cs : List Chunk),
      create_chunksAux S O fuel pages cid = some cs →
      monoNat (pages.map Page.page) = true →
      monoNat (cs.map Chunk.page) = true := by
  intro pages
  induction pages with
  | nil =>
    intro cid cs h _
    simp only [create_chunksAux, Option.some.injEq] at h
    subst h
    rfl
  | cons p ps ih =>
    intro cid cs h hmono
    have hmono' : monoNat (ps.map Page.page) = true := by
      simp only [List.map_cons] at hmono
      exact monoNat_tail _ _ hmono
    simp only [create_chunksAux] at h
    by_cases hcl : clean_text p.text = []
    · rw [if_pos hcl] at h
      exact ih cid cs h hmono'
    · rw [if_neg hcl] at h
      cases hr : runPageAux (clean_text p.text) S O p.page fuel 0 cid with
      | none => rw [hr] at h; simp at h
      | some r =>
        rw [hr] at h
        dsimp only at h
        cases hr2 : create_chunksAux S O fuel ps r.2 with
        | none => rw [hr2] at h; simp at h
        | some rest =>
          rw [hr2] at h
          simp only [Option.map_some', Option.some.injEq] at h
          subst h
          rw [List.map_append]
          apply monoNat_append_const p.page
          · intro x hx
            obtain ⟨c, hc, hcx⟩ := List.mem_map.mp hx
            rw [← hcx]
            exact (runPageAux_sound _ S O p.page fuel 0 cid r.1 r.2 (by rw [hr]) c hc).1
          · intro y hy
            obtain ⟨c, hc, hcy⟩ := List.mem_map.mp hy
            obtain ⟨q, hq, hqpage, -⟩ := create_chunksAux_sound S O fuel ps r.2 rest hr2 c hc
            rw [← hcy, hqpage]
            refine monoNat_head_le p.page (ps.map Page.page) (by simpa using hmono) _ ?_
            exact List.mem_map.mpr ⟨q, hq, rfl⟩
          · exact ih r.2 rest hr2 hmono'

/-- C10: when the input pages' numbers are non-decreasing (as the Text
Extractor produces them: 1, 2, 3, …), the chunk sequence of a single
`create_chunks` call has non-decreasing page fields in emission (id) order,
and every emitted chunk's page value is the page number of one of the input
pages. -/
theorem chunk_pages_monotone (pages : List Page) (S O fuel : Nat) (chunks : List Chunk)
    (h : create_chunks pages S O fuel = some chunks)
    (hmono : monoNat (pages.map Page.page) = true) :
    monoNat (chunks.map Chunk.page) = true ∧
      ∀ c ∈ chunks, c.page ∈ pages.map Page.page := by
  constructor
  · exact create_chunksAux_mono S O fuel pages 0 chunks h hmono
  · intro c hc
    obtain ⟨p, hp, hpg, -⟩ := create_chunksAux_sound S O fuel pages 0 chunks h c hc
    rw [hpg]
    exact List.mem_map.mpr ⟨p, hp, rfl⟩

theorem chunk_pages_monotone_witness :
    monoNat (([{ id := 0, page := 1, text := "a".data },
        { id := 1, page := 2, text := "b".data }] : List Chunk).map Chunk.page) = true ∧
      ∀ c ∈ ([{ id := 0, page := 1, text := "a".data },
          { id := 1, page := 2, text := "b".data }] : List Chunk),
        c.page ∈ ([{ page := 1, text := "a".data },
          { page := 2, text := "b".data }] : List Page).map Page.page :=
  chunk_pages_monotone [{ page := 1, text := "a".data }, { page := 2, text := "b".data }]
    500 100 1 _ (by decide) (by decide)

end Quizzy
